import Mathlib

/-!
Shallow embedding of the rule-based batch-rename / asset-export engine of
`internal/comands/rename.go` (package `comands` of the pyrgear repository),
together with theorems settling the frozen claims about it.

Modelling conventions:
* A directory tree is an inductive `Entry` (a file with its name and the
  string Go would print for its modification time, or a directory with its
  name and children).  `os.ReadDir` of a directory yields its children in
  order; `os.Stat` of a path is modelled by handing the engine the resolved
  node as an `Option Entry` (`none` when `Stat` fails, `some (.file ..)`
  when the path exists but is not a directory).
* Filesystem effects are recorded as an event trace (`Ev`).  Each engine
  prints the planned (source, destination) pair in both modes (the
  `Would rename:` / `Renaming:` lines of the Go code); this print is the
  `planRename` / `planCopy` event, and the actual `os.Rename` / `copyFile`
  / `os.MkdirAll` calls are the `doRename` / `doCopy` / `mkdirAll` events,
  emitted only when `dryRun` is false, exactly as in the source.
* Go `map[string]int` (the wx-exporter sequence map) is embedded as a total
  function `String → Nat` whose default value is 0, matching Go's zero
  value for missing keys.
* `strings.ToLower` is embedded as the character-wise lowercase map
  (ASCII simple case mapping, Lean's `Char.toLower`).
* `filepath.Join a b` on the clean, slash-free names appearing here is
  `a ++ "/" ++ b`; `filepath.Base` takes the last nonempty component.
* Go's `regexp` values are embedded abstractly: a `Regexp` is the function
  returning, for each subject string, the list of (start, end) character
  spans of the non-overlapping leftmost matches (`FindAllStringIndex`),
  together with the well-formedness those spans always have (ordered,
  non-overlapping, in bounds).  `MatchString` is nonemptiness of that
  list and `ReplaceAllString` splices the replacement over the spans,
  exactly as Go's replacer walks the match list.
-/

namespace Pyrgear

/-- Embedding of Go `strings.ToLower` (character-wise simple case map). -/
def stringsToLower (s : String) : String :=
  String.mk (s.data.map Char.toLower)

/-- Embedding of Go `filepath.Ext`: the suffix of the name starting at its
final dot, or the empty string when the name has no dot. -/
def extOf (name : String) : String :=
  match (name.data.reverse).findIdx? (fun c => c = '.') with
  | none => ""
  | some i => String.mk (((name.data.reverse).take (i + 1)).reverse)

/-- Embedding of Go `fmt.Sprintf "%03d"`: decimal digits, zero-padded on the
left to at least three characters. -/
def pad3 (n : Nat) : String :=
  let s := toString n
  if s.length < 3 then String.mk (List.replicate (3 - s.length) '0') ++ s else s

/-- Embedding of Go `filepath.Join` for the clean paths used here. -/
def pathJoin (a b : String) : String :=
  a ++ "/" ++ b

/-- Embedding of Go `filepath.Base` for clean paths: the last nonempty
slash-separated component (`"."` for the empty path, `"/"` for all-slash). -/
def filepathBase (p : String) : String :=
  match ((p.splitOn "/").filter (fun c => c ≠ "")).getLast? with
  | some s => s
  | none => if p = "" then "." else "/"

/-- A directory entry as listed by `os.ReadDir`: a file (with its name and
the `ModTime().Format("20060102_150405")` string the timestamp rule would
print for it) or a subdirectory with its own children. -/
inductive Entry : Type where
  | file (name : String) (mtime : String)
  | dir (name : String) (children : List Entry)

/-- The `Name()` of a directory entry. -/
def Entry.name : Entry → String
  | .file n _ => n
  | .dir n _ => n

/-- The `IsDir()` of a directory entry. -/
def Entry.isDir : Entry → Bool
  | .file _ _ => false
  | .dir _ _ => true

/-- One filesystem event of an engine run.  The `plan` events are the
printed (source, destination) pairs (emitted in both modes); the `do`
events and `mkdirAll` are the actual filesystem mutations (execute mode
only). -/
inductive Ev : Type where
  | mkdirAll (path : String)
  | planRename (src dst : String)
  | doRename (src dst : String)
  | planCopy (src dst : String)
  | doCopy (src dst : String)
deriving DecidableEq

/-- Events of one rename of `src` to `dst`: the printed pair, plus the
`os.Rename` call when not a dry run (the `if dryRun` branch shared by all
rename engines). -/
def renameEvs (src dst : String) (dryRun : Bool) : List Ev :=
  if dryRun then [.planRename src dst] else [.planRename src dst, .doRename src dst]

/-- Events of one copy of `src` to `dst`: the printed pair, plus the
`copyFile` call when not a dry run (the `if dryRun` branch of
`processWxExporter`). -/
def copyEvs (src dst : String) (dryRun : Bool) : List Ev :=
  if dryRun then [.planCopy src dst] else [.planCopy src dst, .doCopy src dst]

/-- The planned (source, destination) pairs of a trace. -/
def plansOf (t : List Ev) : List (String × String) :=
  t.filterMap (fun e =>
    match e with
    | .planRename s d => some (s, d)
    | .planCopy s d => some (s, d)
    | _ => none)

/-- The filesystem mutations of a trace (renames, copies and directory
creations actually performed). -/
def mutationsOf (t : List Ev) : List Ev :=
  t.filter (fun e =>
    match e with
    | .doRename _ _ => true
    | .doCopy _ _ => true
    | .mkdirAll _ => true
    | _ => false)

/-- The sources of the planned copy events of a trace. -/
def copySrcs (t : List Ev) : List String :=
  t.filterMap (fun e =>
    match e with
    | .planCopy s _ => some s
    | _ => none)

/-- The destinations of the planned copy events of a trace. -/
def copyDsts (t : List Ev) : List String :=
  t.filterMap (fun e =>
    match e with
    | .planCopy _ d => some d
    | _ => none)

/-- Well-formedness of a match-span list over a subject of length `len`,
relative to a lower bound `last`: spans are ordered, non-overlapping and in
bounds, as `regexp.FindAllStringIndex` always returns them. -/
def SpansWF (len : Nat) : Nat → List (Nat × Nat) → Prop
  | _, [] => True
  | last, (st, en) :: rest => last ≤ st ∧ st ≤ en ∧ en ≤ len ∧ SpansWF len en rest

/-- Abstract embedding of a compiled Go `regexp.Regexp`: the list of match
spans it finds in each subject (as character-index intervals), known to be
well formed. -/
structure Regexp : Type where
  spans : List Char → List (Nat × Nat)
  wf : ∀ s : List Char, SpansWF s.length 0 (spans s)

/-- Embedding of the splice loop of Go `Regexp.ReplaceAllString`: walk the
match spans, keeping the text between `last` and the next match start,
inserting the replacement at each match, and keeping the tail after the
final match. -/
def goSplice (s repl : List Char) : Nat → List (Nat × Nat) → List Char
  | last, [] => s.drop last
  | last, (st, en) :: rest => ((s.drop last).take (st - last)) ++ repl ++ goSplice s repl en rest

/-- Embedding of Go `Regexp.MatchString`: some match span exists. -/
def Regexp.matchString (re : Regexp) (s : String) : Bool :=
  !(re.spans s.data).isEmpty

/-- Embedding of Go `Regexp.ReplaceAllString` (with a template-free
replacement, which is all the driver's claims need). -/
def Regexp.replaceAllString (re : Regexp) (s repl : String) : String :=
  String.mk (goSplice s.data repl.data 0 (re.spans s.data))

/-- Specification-side description of deleting the matched portions of a
name: keep exactly the characters whose index (starting at `off`) lies in
no match span. -/
def keepUncovered (spans : List (Nat × Nat)) : List Char → Nat → List Char
  | [], _ => []
  | c :: cs, off =>
    (if spans.any (fun p => p.1 ≤ off ∧ off < p.2) then [] else [c]) ++
      keepUncovered spans cs (off + 1)

/-- Embedding of `processDirectory`'s loop body over the entries of one
directory (`rename.go` lines 426–452): a matching file is renamed to the
substituted name, a directory is descended into when `recursive` is set,
and everything else is skipped. -/
def patternEvents (re : Regexp) (repl : String) (recursive dryRun : Bool) :
    String → List Entry → List Ev
  | _, [] => []
  | dirPath, .dir n cs :: rest =>
    (if recursive then patternEvents re repl recursive dryRun (pathJoin dirPath n) cs else []) ++
      patternEvents re repl recursive dryRun dirPath rest
  | dirPath, .file n _ :: rest =>
    (if re.matchString n then
      renameEvs (pathJoin dirPath n) (pathJoin dirPath (re.replaceAllString n repl)) dryRun
    else []) ++ patternEvents re repl recursive dryRun dirPath rest

/-- Embedding of `processDirectory` (`rename.go` lines 409–455): the root
`os.Stat` checks, then the per-entry loop.  The returned `Option String` is
the Go error value. -/
def processDirectory (node : Option Entry) (dir : String) (re : Regexp) (repl : String)
    (recursive dryRun : Bool) : List Ev × Option String :=
  match node with
  | none => ([], some ("failed to access directory " ++ dir))
  | some (.file _ _) => ([], some (dir ++ " is not a directory"))
  | some (.dir _ entries) => (patternEvents re repl recursive dryRun dir entries, none)

/-- Embedding of the `"timestamp"` case of `processDirectoryWithRule`
(`rename.go` lines 299–334): each file is renamed to
`<formatted mtime>_<name>`; directories are recursed into when `recursive`
is set. -/
def tsEvents (recursive dryRun : Bool) : String → List Entry → List Ev
  | _, [] => []
  | dirPath, .dir n cs :: rest =>
    (if recursive then tsEvents recursive dryRun (pathJoin dirPath n) cs else []) ++
      tsEvents recursive dryRun dirPath rest
  | dirPath, .file n mt :: rest =>
    renameEvs (pathJoin dirPath n) (pathJoin dirPath (mt ++ "_" ++ n)) dryRun ++
      tsEvents recursive dryRun dirPath rest

/-- Embedding of the `"sequence"` case of `processDirectoryWithRule`
(`rename.go` lines 336–365).  The position is the Go loop index `i` over
ALL entries of the directory (directories included); each file is renamed
to `file_<pad3 (i+1)><ext>`, and a recursive descent restarts the index at
0 inside the subdirectory. -/
def seqEvents (recursive dryRun : Bool) : String → Nat → List Entry → List Ev
  | _, _, [] => []
  | dirPath, i, .dir n cs :: rest =>
    (if recursive then seqEvents recursive dryRun (pathJoin dirPath n) 0 cs else []) ++
      seqEvents recursive dryRun dirPath (i + 1) rest
  | dirPath, i, .file n _ :: rest =>
    renameEvs (pathJoin dirPath n) (pathJoin dirPath ("file_" ++ pad3 (i + 1) ++ extOf n)) dryRun ++
      seqEvents recursive dryRun dirPath (i + 1) rest

/-- Embedding of the `"lowercase"` case of `processDirectoryWithRule`
(`rename.go` lines 367–399): a file whose lowercased name differs from its
name is renamed to it; already-lowercase names are skipped. -/
def lcEvents (recursive dryRun : Bool) : String → List Entry → List Ev
  | _, [] => []
  | dirPath, .dir n cs :: rest =>
    (if recursive then lcEvents recursive dryRun (pathJoin dirPath n) cs else []) ++
      lcEvents recursive dryRun dirPath rest
  | dirPath, .file n _ :: rest =>
    (if stringsToLower n = n then []
    else renameEvs (pathJoin dirPath n) (pathJoin dirPath (stringsToLower n)) dryRun) ++
      lcEvents recursive dryRun dirPath rest

/-- Embedding of `processDirectoryWithRule` (`rename.go` lines 281–406):
root `os.Stat` checks, then the `switch strings.ToLower(rule)` dispatch;
an unknown rule is an error after no entry has been touched. -/
def processDirectoryWithRule (node : Option Entry) (dir rule : String)
    (recursive dryRun : Bool) : List Ev × Option String :=
  match node with
  | none => ([], some ("failed to access directory " ++ dir))
  | some (.file _ _) => ([], some (dir ++ " is not a directory"))
  | some (.dir _ entries) =>
    if stringsToLower rule = "timestamp" then (tsEvents recursive dryRun dir entries, none)
    else if stringsToLower rule = "sequence" then (seqEvents recursive dryRun dir 0 entries, none)
    else if stringsToLower rule = "lowercase" then (lcEvents recursive dryRun dir entries, none)
    else ([], some ("unknown rule type: " ++ rule))

/-- Embedding of the loop of `processFoldernameRename` (`rename.go` lines
471–490): directories are skipped without touching the counter; each file
is renamed to `<folderName>_<pad3 seq><ext>` and the counter then
increments. -/
def fnrEvents (folderName targetDir : String) (dryRun : Bool) : Nat → List Entry → List Ev
  | _, [] => []
  | seq, .dir _ _ :: rest => fnrEvents folderName targetDir dryRun seq rest
  | seq, .file n _ :: rest =>
    renameEvs (pathJoin targetDir n)
      (pathJoin targetDir (folderName ++ "_" ++ pad3 seq ++ extOf n)) dryRun ++
      fnrEvents folderName targetDir dryRun (seq + 1) rest

/-- Embedding of `processFoldernameRename` (`rename.go` lines 458–492):
root `os.Stat` checks, folder name from `filepath.Base`, then the loop
with the sequence starting at 1. -/
def processFoldernameRename (node : Option Entry) (targetDir : String) (dryRun : Bool) :
    List Ev × Option String :=
  match node with
  | none => ([], some ("failed to access directory " ++ targetDir))
  | some (.file _ _) => ([], some (targetDir ++ " is not a directory"))
  | some (.dir _ entries) => (fnrEvents (filepathBase targetDir) targetDir dryRun 1 entries, none)

/-- Image-extension filter of `processWxExporter` (`rename.go` line 214). -/
def isImageExt (ext : String) : Bool :=
  ext = ".jpg" || ext = ".jpeg" || ext = ".png" || ext = ".gif" || ext = ".webp"

/-- The `assets` lookup of `processWxExporter` (`rename.go` lines 189–194):
the child of `path2` literally named `assets`, provided it is a directory. -/
def findAssets : Entry → Option (List Entry)
  | .file _ _ => none
  | .dir _ cs =>
    match cs.find? (fun c => c.name = "assets") with
    | some (.dir _ as) => some as
    | _ => none

/-- Embedding of the inner file loop of `processWxExporter` (`rename.go`
lines 204–235): skip directories, skip non-image extensions, otherwise
increment the per-`path2` counter in the sequence map and emit the copy of
the file to `<sourceName>_<path2Name>_<pad3 seq><lowercased ext>`. -/
def wxAssetEvents (sourceName path2Name assetsDir outputDir : String) (dryRun : Bool) :
    (String → Nat) → List Entry → (String → Nat) × List Ev
  | m, [] => (m, [])
  | m, .dir _ _ :: rest => wxAssetEvents sourceName path2Name assetsDir outputDir dryRun m rest
  | m, .file n _ :: rest =>
    let ext := stringsToLower (extOf n)
    if isImageExt ext then
      let m' : String → Nat := fun k => if k = path2Name then m path2Name + 1 else m k
      let newName := sourceName ++ "_" ++ path2Name ++ "_" ++ pad3 (m' path2Name) ++ ext
      let res := wxAssetEvents sourceName path2Name assetsDir outputDir dryRun m' rest
      (res.1, copyEvs (pathJoin assetsDir n) (pathJoin outputDir newName) dryRun ++ res.2)
    else wxAssetEvents sourceName path2Name assetsDir outputDir dryRun m rest

/-- Embedding of the outer `path2` loop of `processWxExporter` (`rename.go`
lines 184–236): each `path2` directory lacking an `assets` subdirectory is
skipped; otherwise its assets files are processed with the shared sequence
map threaded through. -/
def wxPath2Loop (sourceName sourcePath outputDir : String) (dryRun : Bool) :
    (String → Nat) → List Entry → (String → Nat) × List Ev
  | m, [] => (m, [])
  | m, p2 :: rest =>
    match findAssets p2 with
    | none => wxPath2Loop sourceName sourcePath outputDir dryRun m rest
    | some as =>
      let r1 := wxAssetEvents sourceName p2.name
        (pathJoin (pathJoin sourcePath p2.name) "assets") outputDir dryRun m as
      let r2 := wxPath2Loop sourceName sourcePath outputDir dryRun r1.1 rest
      (r2.1, r1.2 ++ r2.2)

/-- Embedding of `processWxExporter` (`rename.go` lines 146–239).  When not
a dry run the output directory is created (`os.MkdirAll`) BEFORE the source
root is read; a source root that is missing or not a directory makes
`findPath2Directories`'s `os.ReadDir` fail, which is returned as the error.
The prefix is `preName` when nonempty, else `filepath.Base` of the source
path; `path2` directories are the directory-kind children of the root. -/
def processWxExporter (node : Option Entry) (sourcePath outputDir preName : String)
    (dryRun : Bool) : List Ev × Option String :=
  let pre : List Ev := if dryRun then [] else [.mkdirAll outputDir]
  match node with
  | none => (pre, some ("failed to find subdirectories in " ++ sourcePath))
  | some (.file _ _) => (pre, some ("failed to find subdirectories in " ++ sourcePath))
  | some (.dir _ entries) =>
    let sourceName := if preName ≠ "" then preName else filepathBase sourcePath
    let p2s := entries.filter Entry.isDir
    (pre ++ (wxPath2Loop sourceName sourcePath outputDir dryRun (fun _ => 0) p2s).2, none)

/-- The qualifying image names of a list of `assets` children, in listing
order: the file-kind entries whose lowercased extension is an image
extension. -/
def wxQualNames (as : List Entry) : List String :=
  as.filterMap (fun c =>
    match c with
    | .dir _ _ => none
    | .file n _ => if isImageExt (stringsToLower (extOf n)) then some n else none)

/-- The qualifying image files of one `path2` entry, in listing order: the
file-kind children of its `assets` directory whose lowercased extension is
an image extension (none when the `path2` has no `assets` directory). -/
def wxQualifying (p2 : Entry) : List String :=
  match findAssets p2 with
  | none => []
  | some as => wxQualNames as

/-- Specification-side description of the asset-export events produced for
one `path2` entry: its qualifying files in order, the i-th copied to
`<sourceName>_<path2 name>_<pad3 (i+1)><lowercased ext>` under the output
directory. -/
def wxPerDirEvents (sourceName sourcePath outputDir : String) (dryRun : Bool) (p2 : Entry) :
    List Ev :=
  ((wxQualifying p2).mapIdx (fun i n =>
    copyEvs (pathJoin (pathJoin (pathJoin sourcePath p2.name) "assets") n)
      (pathJoin outputDir
        (sourceName ++ "_" ++ p2.name ++ "_" ++ pad3 (i + 1) ++ stringsToLower (extOf n)))
      dryRun)).flatten

/-- The flag values of one `rename` invocation, with the cobra defaults of
`rename.go` lines 126–143 (`outputDir` defaults to `"wx-export"`, all other
strings to `""`, booleans to `false`). -/
structure Flags : Type where
  directory : String := ""
  pattern : String := ""
  replacement : String := ""
  recursive : Bool := false
  dryRun : Bool := false
  ruleType : String := ""
  sourcePath : String := ""
  outputDir : String := "wx-export"
  preName : String := ""
  parentDir : String := ""
deriving DecidableEq

/-- Outcome of one `RenameCmd.Run` invocation: a usage error printed with
guidance and no engine run, a pattern-compilation error, or an engine run
with its event trace and returned error (printed, not propagated). -/
inductive RunOut : Type where
  | usage (msg : String)
  | compileError
  | engine (trace : List Ev) (err : Option String)
deriving DecidableEq

/-- The per-subdirectory batch of the `foldername-rename` `--pdir` branch
(`rename.go` lines 69–85): run `processFoldernameRename` on each
directory-kind child of the parent, concatenating the traces (per-item
errors are printed and swallowed). -/
def fnrBatch (parentDir : String) (dryRun : Bool) : List Entry → List Ev
  | [] => []
  | .file _ _ :: rest => fnrBatch parentDir dryRun rest
  | .dir n cs :: rest =>
    (processFoldernameRename (some (.dir n cs)) (pathJoin parentDir n) dryRun).1 ++
      fnrBatch parentDir dryRun rest

/-- Embedding of `RenameCmd.Run` (`rename.go` lines 46–122).  `fs` resolves
a path to its filesystem node (`os.Stat` / `os.ReadDir` view), `cwd` is the
result of `os.Getwd`, and `compile` is `regexp.Compile`.  Branch order is
the source's: wx-exporter first, then foldername-rename with its XOR check,
then the required-directory check, then rule dispatch, then the
pattern-required check, compilation and the pattern engine. -/
def RenameCmdRun (fs : String → Option Entry) (cwd : String)
    (compile : String → Option Regexp) (f : Flags) : RunOut :=
  if stringsToLower f.ruleType = "wx-exporter" then
    let sp := if f.sourcePath = "" then cwd else f.sourcePath
    let r := processWxExporter (fs sp) sp f.outputDir f.preName f.dryRun
    .engine r.1 r.2
  else if stringsToLower f.ruleType = "foldername-rename" then
    if (f.directory = "" ∧ f.parentDir = "") ∨ (f.directory ≠ "" ∧ f.parentDir ≠ "") then
      .usage "You must specify either --dir or --pdir, but not both, for foldername-rename rule."
    else if f.directory ≠ "" then
      let r := processFoldernameRename (fs f.directory) f.directory f.dryRun
      .engine r.1 r.2
    else
      match fs f.parentDir with
      | none => .engine [] (some "Error reading parent directory")
      | some (.file _ _) => .engine [] (some "Error reading parent directory")
      | some (.dir _ entries) => .engine (fnrBatch f.parentDir f.dryRun entries) none
  else if f.directory = "" then
    .usage "directory is required for this operation"
  else if f.ruleType ≠ "" then
    let r := processDirectoryWithRule (fs f.directory) f.directory f.ruleType
      f.recursive f.dryRun
    .engine r.1 r.2
  else if f.pattern = "" then
    .usage "either pattern or rule is required"
  else
    match compile f.pattern with
    | none => .compileError
    | some re =>
      let r := processDirectory (fs f.directory) f.directory re f.replacement
        f.recursive f.dryRun
      .engine r.1 r.2

/-- Whether a driver outcome is a usage error. -/
def RunOut.isUsage : RunOut → Bool
  | .usage _ => true
  | _ => false

/-- Insert, after each planned event of a trace, the corresponding
performed event.  An execute-mode trace that equals `expandDry` of the
dry-run trace differs from it exactly by actually performing each planned
action. -/
def expandDry (t : List Ev) : List Ev :=
  t.flatMap (fun e =>
    match e with
    | .planRename s d => [.planRename s d, .doRename s d]
    | .planCopy s d => [.planCopy s d, .doCopy s d]
    | e => [e])

/-- The names of the file-kind entries of a listing, in order. -/
def filesOf : List Entry → List String :=
  List.filterMap (fun e =>
    match e with
    | .file n _ => some n
    | .dir _ _ => none)

/-- The directory tree after one execute-mode run of the lowercase rule
over a directory's children: each file child's name is lowercased, and
when `recursive` is set each directory child is transformed the same way
(directory names are never changed by the rule). -/
def applyLCList (recursive : Bool) : List Entry → List Entry
  | [] => []
  | .file n mt :: rest => .file (stringsToLower n) mt :: applyLCList recursive rest
  | .dir n cs :: rest =>
    .dir n (if recursive then applyLCList recursive cs else cs) :: applyLCList recursive rest

/-- Specification-side description of what the sequence rule does with the
entry at (0-based) full-listing index `k` of a directory: a file is renamed
to `file_<pad3 (k+1)><ext>`, a directory contributes its own recursive
processing (restarting the index at 0) when `recursive` is set. -/
def seqSpecBody (r dry : Bool) (d : String) (k : Nat) : Entry → List Ev
  | .file n _ => renameEvs (pathJoin d n) (pathJoin d ("file_" ++ pad3 (k + 1) ++ extOf n)) dry
  | .dir n cs => if r then seqEvents r dry (pathJoin d n) 0 cs else []

theorem charOfNat_toNat (n : Nat) (h : n.isValidChar) : (Char.ofNat n).toNat = n := by
  simp [Char.ofNat, h, Char.ofNatAux, Char.toNat, UInt32.toNat, BitVec.toNat_ofNat]

theorem charToLower_fix (c : Char) (h : ¬(c.toNat ≥ 65 ∧ c.toNat ≤ 90)) :
    Char.toLower c = c := by
  unfold Char.toLower
  simp [h]

theorem charToLower_idem (c : Char) : Char.toLower (Char.toLower c) = Char.toLower c := by
  by_cases h : c.toNat ≥ 65 ∧ c.toNat ≤ 90
  · have h1 : Char.toLower c = Char.ofNat (c.toNat + 32) := by
      unfold Char.toLower
      simp only [h, and_true, true_and, if_pos, ge_iff_le, h.1, h.2]
    have hv : (c.toNat + 32).isValidChar := Or.inl (by omega)
    have h2 : (Char.ofNat (c.toNat + 32)).toNat = c.toNat + 32 := charOfNat_toNat _ hv
    rw [h1]
    apply charToLower_fix
    rw [h2]
    omega
  · rw [charToLower_fix c h, charToLower_fix c h]

theorem stringsToLower_idem (s : String) :
    stringsToLower (stringsToLower s) = stringsToLower s := by
  simp only [stringsToLower, List.map_map]
  congr 1
  exact List.map_congr_left (fun c _ => charToLower_idem c)

theorem lc_second_pass (r dry : Bool) (d : String) (cs : List Entry) :
    lcEvents r dry d (applyLCList r cs) = [] := by
  induction cs using applyLCList.induct r generalizing d with
  | case1 => simp [applyLCList, lcEvents]
  | case2 n mt rest ih =>
    rw [applyLCList, lcEvents, stringsToLower_idem]
    simp [ih]
  | case3 n cs' rest ih1 ih2 =>
    rw [applyLCList, lcEvents]
    cases r with
    | false => simp [ih2]
    | true => simp [ih1, ih2]

/-- C8: the lowercase rule is idempotent.  After one successful
execute-mode application of the lowercase rule to a directory tree
(`applyLCList`), a second application — dry-run or execute, over the same
recursion setting — produces an empty event trace (every already-lowercase
name is skipped as a no-op) and no error. -/
theorem lowercase_rule_idempotent (rootName d : String) (cs : List Entry) (r dry : Bool) :
    processDirectoryWithRule (some (.dir rootName (applyLCList r cs))) d "lowercase" r dry
      = ([], none) := by
  have hlc : stringsToLower "lowercase" = "lowercase" := by decide
  have hts : stringsToLower "lowercase" ≠ "timestamp" := by decide
  have hsq : stringsToLower "lowercase" ≠ "sequence" := by decide
  simp [processDirectoryWithRule, hts, hsq, hlc, lc_second_pass]

/-- C1 (amended): when the root/source directory of any engine is missing
(`none`) or not a directory (a file node), the invocation returns a
root-access error with nothing planned, renamed or copied; the pattern,
rule and folder-name engines perform zero filesystem mutations, and the
asset-export engine performs none in dry-run mode but in execute mode has
already created the output directory (`os.MkdirAll` runs before the source
root is read). -/
theorem root_error_no_mutation (n mt dir sp out pre repl rule : String) (re : Regexp)
    (r dry : Bool) :
    (processDirectory none dir re repl r dry
        = ([], some ("failed to access directory " ++ dir))
      ∧ processDirectory (some (.file n mt)) dir re repl r dry
        = ([], some (dir ++ " is not a directory")))
    ∧ (processDirectoryWithRule none dir rule r dry
        = ([], some ("failed to access directory " ++ dir))
      ∧ processDirectoryWithRule (some (.file n mt)) dir rule r dry
        = ([], some (dir ++ " is not a directory")))
    ∧ (processFoldernameRename none dir dry
        = ([], some ("failed to access directory " ++ dir))
      ∧ processFoldernameRename (some (.file n mt)) dir dry
        = ([], some (dir ++ " is not a directory")))
    ∧ (processWxExporter none sp out pre dry
        = ((if dry then [] else [.mkdirAll out]),
            some ("failed to find subdirectories in " ++ sp))
      ∧ processWxExporter (some (.file n mt)) sp out pre dry
        = ((if dry then [] else [.mkdirAll out]),
            some ("failed to find subdirectories in " ++ sp))) := by
  refine ⟨⟨rfl, rfl⟩, ⟨rfl, rfl⟩, ⟨rfl, rfl⟩, rfl, rfl⟩

/-- C1 counterexample: with a missing source root, the asset-export rule in
execute mode creates the output directory before the root check fails, so
the operation does NOT perform zero filesystem mutations as the claim
states. -/
theorem root_error_wx_mutation_counterexample :
    processWxExporter none "path1" "wx-export" "" false
      = ([.mkdirAll "wx-export"], some "failed to find subdirectories in path1")
    ∧ mutationsOf (processWxExporter none "path1" "wx-export" "" false).1 ≠ [] := by
  constructor
  · rfl
  · decide

/-- C2 counterexample: with both a rule (`lowercase`) and a
pattern/replacement pair supplied, the driver does NOT report a usage
error; it dispatches to the rule engine and performs work (here it plans a
rename of `d/A.txt`). -/
theorem both_rule_and_pattern_counterexample :
    RenameCmdRun (fun p => if p = "d" then some (.dir "d" [.file "A.txt" ""]) else none)
        "cwd" (fun _ => none)
        { directory := "d", pattern := "x", replacement := "y", ruleType := "lowercase" }
      = .engine [.planRename "d/A.txt" "d/a.txt", .doRename "d/A.txt" "d/a.txt"] none
    ∧ (RenameCmdRun (fun p => if p = "d" then some (.dir "d" [.file "A.txt" ""]) else none)
        "cwd" (fun _ => none)
        { directory := "d", pattern := "x", replacement := "y",
          ruleType := "lowercase" }).isUsage = false := by
  have h1 : stringsToLower "lowercase" = "lowercase" := by decide
  have h2 : stringsToLower "A.txt" = "a.txt" := by decide
  constructor
  · simp [RenameCmdRun, h1, processDirectoryWithRule, lcEvents, renameEvs, pathJoin, h2]
  · simp [RenameCmdRun, h1, processDirectoryWithRule, RunOut.isUsage]

/-- C2 (amended): the driver never enforces mutual exclusion of rule and
pattern; a nonempty rule name takes precedence and the pattern/replacement
flags are simply ignored (the rule engine runs on the directory), while a
usage error for this pair is reported only when NEITHER a rule nor a
pattern is supplied (given a directory). -/
theorem rule_takes_precedence_over_pattern (fs : String → Option Entry) (cwd : String)
    (compile : String → Option Regexp) (f : Flags) :
    (f.ruleType ≠ "" → stringsToLower f.ruleType ≠ "wx-exporter" →
      stringsToLower f.ruleType ≠ "foldername-rename" → f.directory ≠ "" →
      RenameCmdRun fs cwd compile f
        = .engine (processDirectoryWithRule (fs f.directory) f.directory f.ruleType
            f.recursive f.dryRun).1
          (processDirectoryWithRule (fs f.directory) f.directory f.ruleType
            f.recursive f.dryRun).2)
    ∧ (f.ruleType = "" → f.pattern = "" → f.directory ≠ "" →
      RenameCmdRun fs cwd compile f = .usage "either pattern or rule is required") := by
  constructor
  · intro h1 h2 h3 h4
    simp [RenameCmdRun, h1, h2, h3, h4]
  · intro h1 h2 h3
    have hwx : stringsToLower "" ≠ "wx-exporter" := by decide
    have hfn : stringsToLower "" ≠ "foldername-rename" := by decide
    simp [RenameCmdRun, h1, h2, h3, hwx, hfn]

/-- Witness for the amended C2 theorem: both branches applied at concrete
inputs. -/
theorem rule_takes_precedence_over_pattern_witness :
    RenameCmdRun (fun p => if p = "d" then some (.dir "d" [.file "B.txt" ""]) else none)
        "cwd" (fun _ => none)
        { directory := "d", pattern := "x", ruleType := "sequence", dryRun := true }
      = .engine (processDirectoryWithRule
          (some (.dir "d" [.file "B.txt" ""])) "d" "sequence" false true).1
        (processDirectoryWithRule
          (some (.dir "d" [.file "B.txt" ""])) "d" "sequence" false true).2
    ∧ RenameCmdRun (fun p => if p = "d" then some (.dir "d" [.file "B.txt" ""]) else none)
        "cwd" (fun _ => none) { directory := "d" }
      = .usage "either pattern or rule is required" := by
  constructor
  · exact (rule_takes_precedence_over_pattern _ _ _ _).1 (by decide) (by decide) (by decide)
      (by decide)
  · exact (rule_takes_precedence_over_pattern _ _ _ _).2 (by decide) (by decide) (by decide)

theorem mapIdx_congr_fun {α β : Type} {f g : Nat → α → β} (l : List α)
    (h : ∀ i a, f i a = g i a) : l.mapIdx f = l.mapIdx g := by
  induction l generalizing f g with
  | nil => simp
  | cons a as ih =>
    rw [List.mapIdx_cons, List.mapIdx_cons, h]
    exact congrArg _ (ih (fun i a => h (i + 1) a))

theorem seqEvents_eq_mapIdx (r dry : Bool) (d : String) (cs : List Entry) (i : Nat) :
    seqEvents r dry d i cs = (cs.mapIdx (fun j e => seqSpecBody r dry d (i + j) e)).flatten := by
  induction cs generalizing i with
  | nil => simp [seqEvents]
  | cons e rest ih =>
    have hsh : List.mapIdx (fun j (e : Entry) => seqSpecBody r dry d (i + (j + 1)) e) rest
        = List.mapIdx (fun j e => seqSpecBody r dry d (i + 1 + j) e) rest := by
      apply mapIdx_congr_fun
      intro j a
      have hx : i + (j + 1) = i + 1 + j := by omega
      rw [hx]
    cases e with
    | file n mt =>
      rw [seqEvents, ih]
      simp only [List.mapIdx_cons, List.flatten_cons, hsh]
      rw [show seqSpecBody r dry d (i + 0) (.file n mt)
          = renameEvs (pathJoin d n) (pathJoin d ("file_" ++ pad3 (i + 1) ++ extOf n)) dry
        from by rw [Nat.add_zero]; rfl]
    | dir n cs' =>
      rw [seqEvents, ih]
      simp only [List.mapIdx_cons, List.flatten_cons, hsh]
      rw [show seqSpecBody r dry d (i + 0) (.dir n cs')
          = (if r then seqEvents r dry (pathJoin d n) 0 cs' else []) from rfl]

/-- C3 counterexample: a directory listed as `[sub (a directory), a.txt]`
processed with the sequence rule plans `a.txt → file_002.txt`, not
`file_001.txt`: the interleaved subdirectory consumed position 1, so the
positions assigned to files are not the claimed 1,2,3,…. -/
theorem sequence_position_counterexample :
    (processDirectoryWithRule (some (.dir "d" [.dir "sub" [], .file "a.txt" ""]))
        "d" "sequence" false true).1
      = [.planRename "d/a.txt" "d/file_002.txt"]
    ∧ [Ev.planRename "d/a.txt" "d/file_002.txt"]
      ≠ [Ev.planRename "d/a.txt" "d/file_001.txt"] := by
  have hsq : stringsToLower "sequence" = "sequence" := by decide
  have h1 : extOf "a.txt" = ".txt" := by decide
  have h2 : pad3 2 = "002" := by decide
  constructor
  · simp [processDirectoryWithRule, hsq, seqEvents, renameEvs, pathJoin, h1, h2]
  · decide

/-- C3 (amended): the sequence rule renames each direct file entry to
`file_<3-digit zero-padded position><original extension>` where the
position is the 1-based index of the entry in the FULL listing of the
current directory — directories interleaved in the listing consume
positions, so the positions assigned to files are strictly increasing but
may skip values; a recursive descent restarts the position at 1 inside
each subdirectory. -/
theorem sequence_positions_full_listing (rootName d : String) (cs : List Entry)
    (r dry : Bool) :
    processDirectoryWithRule (some (.dir rootName cs)) d "sequence" r dry
      = ((cs.mapIdx (fun j e => seqSpecBody r dry d j e)).flatten, none) := by
  have hsq : stringsToLower "sequence" = "sequence" := by decide
  have hts : stringsToLower "sequence" ≠ "timestamp" := by decide
  simp only [processDirectoryWithRule, hsq, hts, if_neg, if_pos, ite_true, ite_false]
  rw [seqEvents_eq_mapIdx]
  simp

theorem fnrEvents_eq_mapIdx (fn d : String) (dry : Bool) (cs : List Entry) (seq : Nat) :
    fnrEvents fn d dry seq cs
      = ((filesOf cs).mapIdx (fun i n =>
          renameEvs (pathJoin d n) (pathJoin d (fn ++ "_" ++ pad3 (seq + i) ++ extOf n))
            dry)).flatten := by
  induction cs generalizing seq with
  | nil => simp [fnrEvents, filesOf]
  | cons e rest ih =>
    cases e with
    | file n mt =>
      have hsh : List.mapIdx (fun i (n : String) => renameEvs (pathJoin d n)
            (pathJoin d (fn ++ "_" ++ pad3 (seq + (i + 1)) ++ extOf n)) dry) (filesOf rest)
          = List.mapIdx (fun i n => renameEvs (pathJoin d n)
            (pathJoin d (fn ++ "_" ++ pad3 (seq + 1 + i) ++ extOf n)) dry) (filesOf rest) := by
        apply mapIdx_congr_fun
        intro i a
        have hx : seq + (i + 1) = seq + 1 + i := by omega
        rw [hx]
      rw [fnrEvents, ih]
      have hfs : filesOf (Entry.file n mt :: rest) = n :: filesOf rest := by
        simp [filesOf]
      rw [hfs]
      simp only [List.mapIdx_cons, List.flatten_cons, hsh, Nat.add_zero]
    | dir n cs' =>
      rw [fnrEvents, ih]
      have hfs : filesOf (Entry.dir n cs' :: rest) = filesOf rest := by
        simp [filesOf]
      rw [hfs]

/-- C9: the folder-name rename engine renames every direct file entry of
the target directory (directories skipped and never recursed into, and not
consuming sequence numbers) to
`<basename of target directory>_<3-digit sequence><original extension>`,
the sequence being the 1-based index of the file among the directory's
file entries in listing order. -/
theorem foldername_rename_direct_files (rootName d : String) (cs : List Entry)
    (dry : Bool) :
    processFoldernameRename (some (.dir rootName cs)) d dry
      = (((filesOf cs).mapIdx (fun i n =>
          renameEvs (pathJoin d n)
            (pathJoin d (filepathBase d ++ "_" ++ pad3 (i + 1) ++ extOf n)) dry)).flatten,
        none) := by
  simp only [processFoldernameRename]
  rw [fnrEvents_eq_mapIdx]
  have hsh : List.mapIdx (fun i (n : String) => renameEvs (pathJoin d n)
        (pathJoin d (filepathBase d ++ "_" ++ pad3 (1 + i) ++ extOf n)) dry) (filesOf cs)
      = List.mapIdx (fun i n => renameEvs (pathJoin d n)
        (pathJoin d (filepathBase d ++ "_" ++ pad3 (i + 1) ++ extOf n)) dry) (filesOf cs) := by
    apply mapIdx_congr_fun
    intro i a
    have hx : 1 + i = i + 1 := by omega
    rw [hx]
  rw [hsh]

theorem plansOf_append (a b : List Ev) : plansOf (a ++ b) = plansOf a ++ plansOf b := by
  simp [plansOf, List.filterMap_append]

theorem mutationsOf_append (a b : List Ev) :
    mutationsOf (a ++ b) = mutationsOf a ++ mutationsOf b := by
  simp [mutationsOf, List.filter_append]

theorem expandDry_append (a b : List Ev) :
    expandDry (a ++ b) = expandDry a ++ expandDry b := by
  simp [expandDry, List.flatMap_append]

theorem plansOf_expandDry (t : List Ev) : plansOf (expandDry t) = plansOf t := by
  induction t with
  | nil => rfl
  | cons e rest ih =>
    cases e <;> simp [expandDry, plansOf, List.flatMap_cons] <;>
      simpa [expandDry, plansOf] using ih

theorem patternEvents_exec_expand (re : Regexp) (repl : String) (r : Bool)
    (d : String) (cs : List Entry) :
    patternEvents re repl r false d cs = expandDry (patternEvents re repl r true d cs) := by
  induction d, cs using patternEvents.induct re repl r true with
  | case1 d => simp [patternEvents, expandDry]
  | case2 d n cs' rest ih1 ih2 =>
    rw [patternEvents, patternEvents, expandDry_append, ← ih2]
    cases r with
    | false => simp [expandDry]
    | true => simp [← ih1]
  | case3 d n mt rest ih =>
    rw [patternEvents, patternEvents, expandDry_append, ← ih]
    by_cases h : re.matchString n
    · simp [h, renameEvs, expandDry]
    · simp [h, expandDry]

theorem patternEvents_dry_pure (re : Regexp) (repl : String) (r : Bool)
    (d : String) (cs : List Entry) :
    mutationsOf (patternEvents re repl r true d cs) = [] := by
  induction d, cs using patternEvents.induct re repl r true with
  | case1 d => simp [patternEvents, mutationsOf]
  | case2 d n cs' rest ih1 ih2 =>
    rw [patternEvents, mutationsOf_append, ih2]
    cases r with
    | false => simp [mutationsOf]
    | true => simp [ih1]
  | case3 d n mt rest ih =>
    rw [patternEvents, mutationsOf_append, ih]
    by_cases h : re.matchString n
    · simp [h, renameEvs, mutationsOf]
    · simp [h, mutationsOf]

theorem expandDry_renameEvs (s d : String) :
    expandDry (renameEvs s d true) = renameEvs s d false := rfl

theorem expandDry_copyEvs (s d : String) :
    expandDry (copyEvs s d true) = copyEvs s d false := rfl

theorem tsEvents_exec_expand (r : Bool) (d : String) (cs : List Entry) :
    tsEvents r false d cs = expandDry (tsEvents r true d cs) := by
  induction d, cs using tsEvents.induct r true with
  | case1 d => simp [tsEvents, expandDry]
  | case2 d n cs' rest ih1 ih2 =>
    rw [tsEvents, tsEvents, expandDry_append, ← ih2]
    cases r with
    | false => simp [expandDry]
    | true => simp [← ih1]
  | case3 d n mt rest ih =>
    rw [tsEvents, tsEvents, expandDry_append, ← ih, expandDry_renameEvs]

theorem tsEvents_dry_pure (r : Bool) (d : String) (cs : List Entry) :
    mutationsOf (tsEvents r true d cs) = [] := by
  induction d, cs using tsEvents.induct r true with
  | case1 d => simp [tsEvents, mutationsOf]
  | case2 d n cs' rest ih1 ih2 =>
    rw [tsEvents, mutationsOf_append, ih2]
    cases r with
    | false => simp [mutationsOf]
    | true => simp [ih1]
  | case3 d n mt rest ih =>
    rw [tsEvents, mutationsOf_append, ih]
    simp [renameEvs, mutationsOf]

theorem seqEvents_exec_expand (r : Bool) (d : String) (i : Nat) (cs : List Entry) :
    seqEvents r false d i cs = expandDry (seqEvents r true d i cs) := by
  induction d, i, cs using seqEvents.induct r true with
  | case1 d i => simp [seqEvents, expandDry]
  | case2 d i n cs' rest ih1 ih2 =>
    rw [seqEvents, seqEvents, expandDry_append, ← ih2]
    cases r with
    | false => simp [expandDry]
    | true => simp [← ih1]
  | case3 d i n mt rest ih =>
    rw [seqEvents, seqEvents, expandDry_append, ← ih, expandDry_renameEvs]

theorem seqEvents_dry_pure (r : Bool) (d : String) (i : Nat) (cs : List Entry) :
    mutationsOf (seqEvents r true d i cs) = [] := by
  induction d, i, cs using seqEvents.induct r true with
  | case1 d i => simp [seqEvents, mutationsOf]
  | case2 d i n cs' rest ih1 ih2 =>
    rw [seqEvents, mutationsOf_append, ih2]
    cases r with
    | false => simp [mutationsOf]
    | true => simp [ih1]
  | case3 d i n mt rest ih =>
    rw [seqEvents, mutationsOf_append, ih]
    simp [renameEvs, mutationsOf]

theorem lcEvents_exec_expand (r : Bool) (d : String) (cs : List Entry) :
    lcEvents r false d cs = expandDry (lcEvents r true d cs) := by
  induction d, cs using lcEvents.induct r true with
  | case1 d => simp [lcEvents, expandDry]
  | case2 d n cs' rest ih1 ih2 =>
    rw [lcEvents, lcEvents, expandDry_append, ← ih2]
    cases r with
    | false => simp [expandDry]
    | true => simp [← ih1]
  | case3 d n mt rest ih =>
    rw [lcEvents, lcEvents, expandDry_append, ← ih]
    by_cases h : stringsToLower n = n
    · simp [h, expandDry]
    · simp [h, expandDry_renameEvs]

theorem lcEvents_dry_pure (r : Bool) (d : String) (cs : List Entry) :
    mutationsOf (lcEvents r true d cs) = [] := by
  induction d, cs using lcEvents.induct r true with
  | case1 d => simp [lcEvents, mutationsOf]
  | case2 d n cs' rest ih1 ih2 =>
    rw [lcEvents, mutationsOf_append, ih2]
    cases r with
    | false => simp [mutationsOf]
    | true => simp [ih1]
  | case3 d n mt rest ih =>
    rw [lcEvents, mutationsOf_append, ih]
    by_cases h : stringsToLower n = n
    · simp [h, mutationsOf]
    · simp [h, renameEvs, mutationsOf]

theorem fnrEvents_exec_expand (fn d : String) (seq : Nat) (cs : List Entry) :
    fnrEvents fn d false seq cs = expandDry (fnrEvents fn d true seq cs) := by
  induction seq, cs using fnrEvents.induct fn d true with
  | case1 seq => simp [fnrEvents, expandDry]
  | case2 seq n cs' rest ih =>
    rw [fnrEvents, fnrEvents]
    exact ih
  | case3 seq n mt rest ih =>
    rw [fnrEvents, fnrEvents, expandDry_append, ← ih, expandDry_renameEvs]

theorem fnrEvents_dry_pure (fn d : String) (seq : Nat) (cs : List Entry) :
    mutationsOf (fnrEvents fn d true seq cs) = [] := by
  induction seq, cs using fnrEvents.induct fn d true with
  | case1 seq => simp [fnrEvents, mutationsOf]
  | case2 seq n cs' rest ih =>
    rw [fnrEvents]
    exact ih
  | case3 seq n mt rest ih =>
    rw [fnrEvents, mutationsOf_append, ih]
    simp [renameEvs, mutationsOf]

theorem wxAssetEvents_exec_expand (sn p2n ad od : String) (m : String → Nat)
    (fs : List Entry) :
    wxAssetEvents sn p2n ad od false m fs
      = ((wxAssetEvents sn p2n ad od true m fs).1,
        expandDry (wxAssetEvents sn p2n ad od true m fs).2) := by
  induction m, fs using wxAssetEvents.induct sn p2n ad od true with
  | case1 m => simp [wxAssetEvents, expandDry]
  | case2 m n cs' rest ih =>
    rw [wxAssetEvents, wxAssetEvents]
    exact ih
  | case3 m n mt rest ext hext m' ih =>
    rw [wxAssetEvents, wxAssetEvents]
    simp only [hext, if_pos, expandDry_append, expandDry_copyEvs, ih]
  | case4 m n mt rest ext hext ih =>
    rw [wxAssetEvents, wxAssetEvents]
    simp only [hext, if_neg, ih, Bool.false_eq_true, ite_false]

theorem wxAssetEvents_dry_pure (sn p2n ad od : String) (m : String → Nat)
    (fs : List Entry) :
    mutationsOf (wxAssetEvents sn p2n ad od true m fs).2 = [] := by
  induction m, fs using wxAssetEvents.induct sn p2n ad od true with
  | case1 m => simp [wxAssetEvents, mutationsOf]
  | case2 m n cs' rest ih =>
    rw [wxAssetEvents]
    exact ih
  | case3 m n mt rest ext hext m' ih =>
    rw [wxAssetEvents]
    simp only [hext, if_pos]
    rw [mutationsOf_append, ih]
    simp [copyEvs, mutationsOf]
  | case4 m n mt rest ext hext ih =>
    rw [wxAssetEvents]
    simp only [hext, if_neg, ih, Bool.false_eq_true, ite_false]

theorem wxPath2Loop_exec_expand (sn sp od : String) (m : String → Nat)
    (p2s : List Entry) :
    wxPath2Loop sn sp od false m p2s
      = ((wxPath2Loop sn sp od true m p2s).1,
        expandDry (wxPath2Loop sn sp od true m p2s).2) := by
  induction m, p2s using wxPath2Loop.induct sn sp od true with
  | case1 m => simp [wxPath2Loop, expandDry]
  | case2 m p2 rest h ih =>
    rw [wxPath2Loop, wxPath2Loop]
    simp only [h, ih]
  | case3 m p2 rest as h r1 ih =>
    rw [wxPath2Loop, wxPath2Loop]
    simp only [h, wxAssetEvents_exec_expand, ih, expandDry_append]

theorem wxPath2Loop_dry_pure (sn sp od : String) (m : String → Nat)
    (p2s : List Entry) :
    mutationsOf (wxPath2Loop sn sp od true m p2s).2 = [] := by
  induction m, p2s using wxPath2Loop.induct sn sp od true with
  | case1 m => simp [wxPath2Loop, mutationsOf]
  | case2 m p2 rest h ih =>
    rw [wxPath2Loop]
    simp only [h, ih]
  | case3 m p2 rest as h r1 ih =>
    rw [wxPath2Loop]
    simp only [h]
    rw [mutationsOf_append, wxAssetEvents_dry_pure, ih]
    rfl

theorem plansOf_mkdir_cons (p : String) (t : List Ev) :
    plansOf (.mkdirAll p :: t) = plansOf t := by
  simp [plansOf]

theorem processDirectory_modes (node : Option Entry) (dir repl : String) (re : Regexp)
    (r : Bool) :
    (processDirectory node dir re repl r false).1
        = expandDry (processDirectory node dir re repl r true).1
    ∧ (processDirectory node dir re repl r false).2
        = (processDirectory node dir re repl r true).2
    ∧ mutationsOf (processDirectory node dir re repl r true).1 = [] := by
  match node with
  | none => exact ⟨rfl, rfl, rfl⟩
  | some (.file _ _) => exact ⟨rfl, rfl, rfl⟩
  | some (.dir _ entries) =>
    exact ⟨patternEvents_exec_expand re repl r dir entries, rfl,
      patternEvents_dry_pure re repl r dir entries⟩

theorem processDirectoryWithRule_modes (node : Option Entry) (dir rule : String)
    (r : Bool) :
    (processDirectoryWithRule node dir rule r false).1
        = expandDry (processDirectoryWithRule node dir rule r true).1
    ∧ (processDirectoryWithRule node dir rule r false).2
        = (processDirectoryWithRule node dir rule r true).2
    ∧ mutationsOf (processDirectoryWithRule node dir rule r true).1 = [] := by
  match node with
  | none => exact ⟨rfl, rfl, rfl⟩
  | some (.file _ _) => exact ⟨rfl, rfl, rfl⟩
  | some (.dir _ entries) =>
    by_cases hts : stringsToLower rule = "timestamp"
    · simp [processDirectoryWithRule, hts, tsEvents_exec_expand, tsEvents_dry_pure]
    · by_cases hsq : stringsToLower rule = "sequence"
      · simp [processDirectoryWithRule, hts, hsq, seqEvents_exec_expand, seqEvents_dry_pure]
      · by_cases hlc : stringsToLower rule = "lowercase"
        · simp [processDirectoryWithRule, hts, hsq, hlc, lcEvents_exec_expand,
            lcEvents_dry_pure]
        · simp [processDirectoryWithRule, hts, hsq, hlc, expandDry, mutationsOf]

theorem processFoldernameRename_modes (node : Option Entry) (dir : String) :
    (processFoldernameRename node dir false).1
        = expandDry (processFoldernameRename node dir true).1
    ∧ (processFoldernameRename node dir false).2
        = (processFoldernameRename node dir true).2
    ∧ mutationsOf (processFoldernameRename node dir true).1 = [] := by
  match node with
  | none => exact ⟨rfl, rfl, rfl⟩
  | some (.file _ _) => exact ⟨rfl, rfl, rfl⟩
  | some (.dir _ entries) =>
    exact ⟨fnrEvents_exec_expand (filepathBase dir) dir 1 entries, rfl,
      fnrEvents_dry_pure (filepathBase dir) dir 1 entries⟩

theorem processWxExporter_modes (node : Option Entry) (sp out pre : String) :
    (processWxExporter node sp out pre false).1
        = .mkdirAll out :: expandDry (processWxExporter node sp out pre true).1
    ∧ (processWxExporter node sp out pre false).2
        = (processWxExporter node sp out pre true).2
    ∧ mutationsOf (processWxExporter node sp out pre true).1 = [] := by
  match node with
  | none => exact ⟨rfl, rfl, rfl⟩
  | some (.file _ _) => exact ⟨rfl, rfl, rfl⟩
  | some (.dir _ entries) =>
    refine ⟨?_, rfl, ?_⟩
    · simp only [processWxExporter, ite_true, ite_false, List.nil_append]
      rw [wxPath2Loop_exec_expand]
      simp
    · simp only [processWxExporter, ite_true, List.nil_append]
      exact wxPath2Loop_dry_pure _ _ _ _ _

/-- C5 counterexample: for the asset-export engine on a source root with no
subdirectories, dry-run and execute both plan zero (source, destination)
pairs, yet execute performs a filesystem mutation (it creates the output
directory), so execute does NOT differ from dry-run only in performing the
planned actions. -/
theorem dry_run_execute_counterexample :
    plansOf (processWxExporter (some (.dir "p1" [])) "p1" "out" "" false).1 = []
    ∧ plansOf (processWxExporter (some (.dir "p1" [])) "p1" "out" "" true).1 = []
    ∧ mutationsOf (processWxExporter (some (.dir "p1" [])) "p1" "out" "" false).1
      = [.mkdirAll "out"]
    ∧ [Ev.mkdirAll "out"] ≠ [] := by
  refine ⟨?_, ?_, ?_, by decide⟩
  · simp [processWxExporter, wxPath2Loop, plansOf]
  · simp [processWxExporter, wxPath2Loop, plansOf]
  · simp [processWxExporter, wxPath2Loop, mutationsOf]

/-- C5 (amended): for every engine and every fixed input, dry-run and
execute plan the identical sequence of (source, destination) pairs and
return the same error; dry-run performs zero filesystem mutations; and the
execute trace is exactly the dry-run trace with each planned action
actually performed (`expandDry`) — except that the asset-export engine in
execute mode additionally creates the output directory first, a mutation
that corresponds to no planned pair. -/
theorem dry_run_plans_equal_execute (node : Option Entry) (dir sp out pre rule repl : String)
    (re : Regexp) (r : Bool) :
    (plansOf (processDirectory node dir re repl r true).1
        = plansOf (processDirectory node dir re repl r false).1
      ∧ (processDirectory node dir re repl r true).2
        = (processDirectory node dir re repl r false).2
      ∧ mutationsOf (processDirectory node dir re repl r true).1 = []
      ∧ (processDirectory node dir re repl r false).1
        = expandDry (processDirectory node dir re repl r true).1)
    ∧ (plansOf (processDirectoryWithRule node dir rule r true).1
        = plansOf (processDirectoryWithRule node dir rule r false).1
      ∧ (processDirectoryWithRule node dir rule r true).2
        = (processDirectoryWithRule node dir rule r false).2
      ∧ mutationsOf (processDirectoryWithRule node dir rule r true).1 = []
      ∧ (processDirectoryWithRule node dir rule r false).1
        = expandDry (processDirectoryWithRule node dir rule r true).1)
    ∧ (plansOf (processFoldernameRename node dir true).1
        = plansOf (processFoldernameRename node dir false).1
      ∧ (processFoldernameRename node dir true).2
        = (processFoldernameRename node dir false).2
      ∧ mutationsOf (processFoldernameRename node dir true).1 = []
      ∧ (processFoldernameRename node dir false).1
        = expandDry (processFoldernameRename node dir true).1)
    ∧ (plansOf (processWxExporter node sp out pre true).1
        = plansOf (processWxExporter node sp out pre false).1
      ∧ (processWxExporter node sp out pre true).2
        = (processWxExporter node sp out pre false).2
      ∧ mutationsOf (processWxExporter node sp out pre true).1 = []
      ∧ (processWxExporter node sp out pre false).1
        = .mkdirAll out :: expandDry (processWxExporter node sp out pre true).1) := by
  obtain ⟨h1, h2, h3⟩ := processDirectory_modes node dir repl re r
  obtain ⟨g1, g2, g3⟩ := processDirectoryWithRule_modes node dir rule r
  obtain ⟨k1, k2, k3⟩ := processFoldernameRename_modes node dir
  obtain ⟨w1, w2, w3⟩ := processWxExporter_modes node sp out pre
  refine ⟨⟨?_, h2.symm, h3, h1⟩, ⟨?_, g2.symm, g3, g1⟩, ⟨?_, k2.symm, k3, k1⟩,
    ⟨?_, w2.symm, w3, w1⟩⟩
  · rw [h1, plansOf_expandDry]
  · rw [g1, plansOf_expandDry]
  · rw [k1, plansOf_expandDry]
  · rw [w1, plansOf_mkdir_cons, plansOf_expandDry]

theorem wxAssetEvents_spec (sn p2n ad od : String) (dry : Bool) (m : String → Nat)
    (fs : List Entry) :
    (wxAssetEvents sn p2n ad od dry m fs).1
      = (fun k => if k = p2n then m p2n + (wxQualNames fs).length else m k)
    ∧ (wxAssetEvents sn p2n ad od dry m fs).2
      = ((wxQualNames fs).mapIdx (fun i n =>
          copyEvs (pathJoin ad n)
            (pathJoin od (sn ++ "_" ++ p2n ++ "_" ++ pad3 (m p2n + i + 1)
              ++ stringsToLower (extOf n))) dry)).flatten := by
  induction m, fs using wxAssetEvents.induct sn p2n ad od dry with
  | case1 m =>
    refine ⟨?_, by simp [wxAssetEvents, wxQualNames]⟩
    funext k
    by_cases hk : k = p2n
    · simp [wxAssetEvents, wxQualNames, hk]
    · simp [wxAssetEvents, wxQualNames, hk]
  | case2 m n cs' rest ih =>
    rw [wxAssetEvents]
    have hq : wxQualNames (Entry.dir n cs' :: rest) = wxQualNames rest := by
      simp [wxQualNames]
    rw [hq]
    exact ih
  | case3 m n mt rest ext hext m' ih =>
    obtain ⟨ih1, ih2⟩ := ih
    have hq : wxQualNames (Entry.file n mt :: rest) = n :: wxQualNames rest := by
      simp [wxQualNames, hext]
    rw [wxAssetEvents]
    simp only [hext, if_pos, hq]
    have hm' : m' p2n = m p2n + 1 := by simp [m']
    constructor
    · rw [ih1]
      funext k
      by_cases hk : k = p2n
      · simp [hk, hm', List.length_cons]
        omega
      · simp [m', hk]
    · rw [ih2, List.mapIdx_cons, List.flatten_cons]
      have hsh : List.mapIdx (fun i n' => copyEvs (pathJoin ad n')
            (pathJoin od (sn ++ "_" ++ p2n ++ "_" ++ pad3 (m' p2n + i + 1)
              ++ stringsToLower (extOf n'))) dry) (wxQualNames rest)
          = List.mapIdx (fun i n' => copyEvs (pathJoin ad n')
            (pathJoin od (sn ++ "_" ++ p2n ++ "_" ++ pad3 (m p2n + (i + 1) + 1)
              ++ stringsToLower (extOf n'))) dry) (wxQualNames rest) := by
        apply mapIdx_congr_fun
        intro i a
        rw [show m' p2n + i + 1 = m p2n + (i + 1) + 1 from by rw [hm']; omega]
      rw [hsh]
  | case4 m n mt rest ext hext ih =>
    rw [wxAssetEvents]
    have hq : wxQualNames (Entry.file n mt :: rest) = wxQualNames rest := by
      simp [wxQualNames, hext]
    simp only [hext, if_neg, Bool.false_eq_true, ite_false, hq]
    exact ih

theorem wxPath2Loop_spec (sn sp od : String) (dry : Bool) (m : String → Nat)
    (p2s : List Entry) (hm : ∀ p2 ∈ p2s, m p2.name = 0)
    (hnd : (p2s.map Entry.name).Nodup) :
    (wxPath2Loop sn sp od dry m p2s).2
      = p2s.flatMap (wxPerDirEvents sn sp od dry) := by
  induction m, p2s using wxPath2Loop.induct sn sp od dry with
  | case1 m => simp [wxPath2Loop]
  | case2 m p2 rest h ih =>
    rw [wxPath2Loop]
    simp only [h]
    rw [List.flatMap_cons]
    have hpd : wxPerDirEvents sn sp od dry p2 = [] := by
      simp [wxPerDirEvents, wxQualifying, h]
    rw [hpd, List.nil_append]
    have hnd2 := hnd
    rw [List.map_cons, List.nodup_cons] at hnd2
    exact ih (fun q hq => hm q (List.mem_cons_of_mem _ hq)) hnd2.2
  | case3 m p2 rest as h r1 ih =>
    rw [wxPath2Loop]
    simp only [h]
    rw [List.flatMap_cons]
    obtain ⟨hs1, hs2⟩ := wxAssetEvents_spec sn p2.name
      (pathJoin (pathJoin sp p2.name) "assets") od dry m as
    have hm0 : m p2.name = 0 := hm p2 (List.mem_cons_self _ _)
    have hhead : r1.2 = wxPerDirEvents sn sp od dry p2 := by
      rw [show r1 = wxAssetEvents sn p2.name (pathJoin (pathJoin sp p2.name) "assets")
        od dry m as from rfl]
      rw [hs2]
      simp only [wxPerDirEvents, wxQualifying, h]
      congr 1
      apply mapIdx_congr_fun
      intro i a
      rw [show m p2.name + i + 1 = i + 1 from by omega]
    have hnd2 := hnd
    rw [List.map_cons, List.nodup_cons] at hnd2
    obtain ⟨hnotmem, hndr⟩ := hnd2
    have htail : (wxPath2Loop sn sp od dry r1.1 rest).2
        = rest.flatMap (wxPerDirEvents sn sp od dry) := by
      apply ih
      · intro q hq
        rw [show r1 = wxAssetEvents sn p2.name (pathJoin (pathJoin sp p2.name) "assets")
          od dry m as from rfl, hs1]
        have hqn : q.name ≠ p2.name := by
          intro hcontra
          exact hnotmem (hcontra ▸ List.mem_map_of_mem Entry.name hq)
        simp only [hqn, if_neg, ite_false]
        exact hm q (List.mem_cons_of_mem _ hq)
      · exact hndr
    rw [hhead, htail]

/-- C7: each `path2` subdirectory has its own independent sequence counter.
Provided the `path2` names are distinct (as directory listings guarantee),
the whole asset-export trace decomposes per `path2`, and inside each
`path2` the i-th qualifying image (0-based) receives sequence number
`i + 1`: the first gets 001, each next one the previous value plus 1, and
the files of other `path2` names have no influence. -/
theorem wx_sequence_per_path2 (rootName sp out pre : String) (cs : List Entry) (dry : Bool)
    (hnd : ((cs.filter Entry.isDir).map Entry.name).Nodup) :
    processWxExporter (some (.dir rootName cs)) sp out pre dry
      = ((if dry then [] else [.mkdirAll out])
          ++ (cs.filter Entry.isDir).flatMap
            (wxPerDirEvents (if pre ≠ "" then pre else filepathBase sp) sp out dry),
        none) := by
  simp only [processWxExporter]
  rw [wxPath2Loop_spec _ _ _ _ _ _ (fun q _ => rfl) hnd]

/-- Witness for C7 at the spec's scenario: `path1/page1/assets/img.png` and
`path1/page2/assets/icon.jpg` with prefix `site` yield `site_page1_001.png`
and `site_page2_001.jpg`, with independent counters. -/
theorem wx_sequence_per_path2_witness :
    ((([Entry.dir "page1" [.dir "assets" [.file "img.png" ""]],
        Entry.dir "page2" [.dir "assets" [.file "icon.jpg" ""]]].filter
          Entry.isDir).map Entry.name).Nodup)
    ∧ processWxExporter
        (some (.dir "p1" [.dir "page1" [.dir "assets" [.file "img.png" ""]],
          .dir "page2" [.dir "assets" [.file "icon.jpg" ""]]])) "path1" "out" "site" true
      = ([.planCopy "path1/page1/assets/img.png" "out/site_page1_001.png",
          .planCopy "path1/page2/assets/icon.jpg" "out/site_page2_001.jpg"], none) := by
  constructor
  · decide
  · rw [wx_sequence_per_path2 "p1" "path1" "out" "site" _ true (by decide)]
    decide

theorem copySrcs_append (a b : List Ev) : copySrcs (a ++ b) = copySrcs a ++ copySrcs b := by
  simp [copySrcs, List.filterMap_append]

theorem copySrcs_copyEvs (s d : String) (dry : Bool) :
    copySrcs (copyEvs s d dry) = [s] := by
  cases dry <;> rfl

theorem copySrcs_wxAssetEvents (sn p2n ad od : String) (dry : Bool) (m : String → Nat)
    (fs : List Entry) :
    copySrcs (wxAssetEvents sn p2n ad od dry m fs).2
      = (wxQualNames fs).map (fun n => pathJoin ad n) := by
  induction m, fs using wxAssetEvents.induct sn p2n ad od dry with
  | case1 m => simp [wxAssetEvents, wxQualNames, copySrcs]
  | case2 m n cs' rest ih =>
    rw [wxAssetEvents]
    simpa [wxQualNames] using ih
  | case3 m n mt rest ext hext m' ih =>
    rw [wxAssetEvents]
    simp only [hext, if_pos]
    rw [copySrcs_append, copySrcs_copyEvs, ih]
    simp [wxQualNames, hext]
  | case4 m n mt rest ext hext ih =>
    rw [wxAssetEvents]
    simp only [hext, if_neg, Bool.false_eq_true, ite_false]
    rw [ih]
    simp [wxQualNames, hext]

theorem copySrcs_wxPath2Loop (sn sp od : String) (dry : Bool) (m : String → Nat)
    (p2s : List Entry) :
    copySrcs (wxPath2Loop sn sp od dry m p2s).2
      = p2s.flatMap (fun p2 => (wxQualifying p2).map
          (fun n => pathJoin (pathJoin (pathJoin sp p2.name) "assets") n)) := by
  induction m, p2s using wxPath2Loop.induct sn sp od dry with
  | case1 m => simp [wxPath2Loop, copySrcs]
  | case2 m p2 rest h ih =>
    rw [wxPath2Loop]
    simp only [h, List.flatMap_cons]
    rw [ih]
    simp [wxQualifying, h]
  | case3 m p2 rest as h r1 ih =>
    rw [wxPath2Loop]
    simp only [h, List.flatMap_cons]
    rw [copySrcs_append, copySrcs_wxAssetEvents, ih]
    simp [wxQualifying, h]

/-- C6: the asset-export rule only ever copies files that are direct
file-kind children of a `path2/assets` directory whose lowercased extension
is one of the five image extensions: the sources of all planned copies are
exactly `sp/<path2>/assets/<n>` for the qualifying `n` of each
directory-kind `path2` child, in order.  A `path2` without an `assets`
directory contributes nothing (it is silently skipped), directories inside
`assets` and non-image extensions are never sources, and nothing deeper
than one level below `path2` is ever read. -/
theorem wx_only_copies_direct_assets_images (rootName sp out pre : String)
    (cs : List Entry) (dry : Bool) :
    copySrcs (processWxExporter (some (.dir rootName cs)) sp out pre dry).1
      = (cs.filter Entry.isDir).flatMap
          (fun p2 => (wxQualifying p2).map
            (fun n => pathJoin (pathJoin (pathJoin sp p2.name) "assets") n)) := by
  cases dry with
  | true =>
    simp only [processWxExporter, ite_true, List.nil_append]
    rw [copySrcs_wxPath2Loop]
  | false =>
    simp only [processWxExporter, ite_false, Bool.false_eq_true]
    rw [copySrcs_append, copySrcs_wxPath2Loop]
    rfl

theorem copyDsts_append (a b : List Ev) : copyDsts (a ++ b) = copyDsts a ++ copyDsts b := by
  simp [copyDsts, List.filterMap_append]

theorem copyDsts_copyEvs (s d : String) (dry : Bool) :
    copyDsts (copyEvs s d dry) = [d] := by
  cases dry <;> rfl

theorem copyDsts_mapIdx_copyEvs (dry : Bool) (l : List String)
    (f g : Nat → String → String) :
    copyDsts ((l.mapIdx (fun i n => copyEvs (f i n) (g i n) dry)).flatten)
      = l.mapIdx g := by
  induction l generalizing f g with
  | nil => simp [copyDsts]
  | cons a as ih =>
    rw [List.mapIdx_cons, List.flatten_cons, copyDsts_append, copyDsts_copyEvs,
      List.mapIdx_cons]
    exact congrArg _ (ih (fun i => f (i + 1)) (fun i => g (i + 1)))

theorem copyDsts_flatMap (f : Entry → List Ev) (l : List Entry) :
    copyDsts (l.flatMap f) = l.flatMap (fun e => copyDsts (f e)) := by
  induction l with
  | nil => rfl
  | cons a as ih => rw [List.flatMap_cons, List.flatMap_cons, copyDsts_append, ih]

/-- C4 counterexample: a qualifying image whose original extension is
uppercase (`a.PNG`) is planned to be copied to `out/site_page1_001.png` —
the LOWERCASED extension — not `out/site_page1_001.PNG` with the original
extension as the claim states. -/
theorem wx_output_extension_counterexample :
    (processWxExporter (some (.dir "p1" [.dir "page1" [.dir "assets" [.file "a.PNG" ""]]]))
        "path1" "out" "site" true).1
      = [.planCopy "path1/page1/assets/a.PNG" "out/site_page1_001.png"]
    ∧ "out/site_page1_001.png" ≠ "out/site_page1_001.PNG" := by
  have hfa : findAssets (Entry.dir "page1" [.dir "assets" [.file "a.PNG" ""]])
      = some [.file "a.PNG" ""] := rfl
  have himg : isImageExt (stringsToLower (extOf "a.PNG")) = true := by decide
  constructor
  · simp only [processWxExporter, ite_true, List.nil_append]
    simp [wxPath2Loop, wxAssetEvents, hfa, himg, List.filter, Entry.isDir]
    decide
  · decide

/-- C4 (amended): the computed output name for the i-th (0-based)
qualifying image of a `path2` is
`<prefix>_<path2 name>_<3-digit sequence>` followed by the LOWERCASED form
of the file's original extension; when the original extension contains
uppercase letters the output extension differs from it. -/
theorem wx_output_extension_lowercased (rootName sp out pre : String)
    (cs : List Entry) (dry : Bool)
    (hnd : ((cs.filter Entry.isDir).map Entry.name).Nodup) :
    copyDsts (processWxExporter (some (.dir rootName cs)) sp out pre dry).1
      = (cs.filter Entry.isDir).flatMap (fun p2 =>
          (wxQualifying p2).mapIdx (fun i n =>
            pathJoin out ((if pre ≠ "" then pre else filepathBase sp) ++ "_" ++ p2.name
              ++ "_" ++ pad3 (i + 1) ++ stringsToLower (extOf n)))) := by
  have hloop := wxPath2Loop_spec (if pre ≠ "" then pre else filepathBase sp) sp out dry
    (fun _ => 0) (cs.filter Entry.isDir) (fun q _ => rfl) hnd
  have hper : ∀ p2 : Entry, copyDsts (wxPerDirEvents
        (if pre ≠ "" then pre else filepathBase sp) sp out dry p2)
      = (wxQualifying p2).mapIdx (fun i n =>
          pathJoin out ((if pre ≠ "" then pre else filepathBase sp) ++ "_" ++ p2.name
            ++ "_" ++ pad3 (i + 1) ++ stringsToLower (extOf n))) := by
    intro p2
    rw [wxPerDirEvents, copyDsts_mapIdx_copyEvs]
  cases dry with
  | true =>
    simp only [processWxExporter, ite_true, List.nil_append]
    rw [hloop, copyDsts_flatMap]
    exact List.flatMap_congr (fun p2 _ => hper p2)
  | false =>
    simp only [processWxExporter, ite_false, Bool.false_eq_true]
    rw [copyDsts_append, hloop, copyDsts_flatMap]
    rw [show copyDsts [Ev.mkdirAll out] = [] from rfl, List.nil_append]
    exact List.flatMap_congr (fun p2 _ => hper p2)

/-- Witness for the amended C4 theorem at a concrete input with an
uppercase original extension. -/
theorem wx_output_extension_lowercased_witness :
    ((([Entry.dir "page1" [.dir "assets" [.file "a.PNG" ""]]].filter
        Entry.isDir).map Entry.name).Nodup)
    ∧ copyDsts (processWxExporter
        (some (.dir "p1" [.dir "page1" [.dir "assets" [.file "a.PNG" ""]]]))
        "path1" "out" "site" true).1
      = [Entry.dir "page1" [.dir "assets" [.file "a.PNG" ""]]].flatMap (fun p2 =>
          (wxQualifying p2).mapIdx (fun i n =>
            pathJoin "out" ("site" ++ "_" ++ p2.name ++ "_" ++ pad3 (i + 1)
              ++ stringsToLower (extOf n)))) := by
  constructor
  · decide
  · have h := wx_output_extension_lowercased "p1" "path1" "out" "site"
      [Entry.dir "page1" [.dir "assets" [.file "a.PNG" ""]]] true (by decide)
    rw [h]
    decide

theorem keepUncovered_nil_spans (t : List Char) (off : Nat) :
    keepUncovered [] t off = t := by
  induction t generalizing off with
  | nil => rfl
  | cons c cs ih => simp [keepUncovered, ih]

theorem spansWF_not_covered (len : Nat) (spans : List (Nat × Nat)) (b i : Nat)
    (hwf : SpansWF len b spans) (hib : i < b) :
    spans.any (fun p => p.1 ≤ i ∧ i < p.2) = false := by
  induction spans generalizing b with
  | nil => rfl
  | cons p rest ih =>
    obtain ⟨st, en⟩ := p
    simp only [SpansWF] at hwf
    obtain ⟨h1, h2, h3, h4⟩ := hwf
    simp only [List.any_cons, Bool.or_eq_false_iff]
    constructor
    · have : ¬(st ≤ i ∧ i < en) := by omega
      simpa using this
    · exact ih en h4 (by omega)

theorem keepUncovered_skip (spans : List (Nat × Nat)) (t : List Char) (off m : Nat)
    (hom : off ≤ m)
    (hunc : ∀ i, off ≤ i → i < m → spans.any (fun p => p.1 ≤ i ∧ i < p.2) = false) :
    keepUncovered spans t off
      = t.take (m - off) ++ keepUncovered spans (t.drop (m - off)) m := by
  induction t generalizing off with
  | nil => simp [keepUncovered]
  | cons c cs ih =>
    rcases Nat.eq_or_lt_of_le hom with heq | hlt
    · subst heq
      simp [Nat.sub_self]
    · rw [keepUncovered, hunc off le_rfl hlt]
      have hms : m - off = (m - (off + 1)) + 1 := by omega
      rw [hms, List.take_succ_cons, List.drop_succ_cons]
      rw [ih (off + 1) hlt (fun i hi1 hi2 => hunc i (by omega) hi2)]
      simp

theorem keepUncovered_skip_covered (spans : List (Nat × Nat)) (t : List Char) (off en : Nat)
    (hom : off ≤ en)
    (hcov : ∀ i, off ≤ i → i < en → spans.any (fun p => p.1 ≤ i ∧ i < p.2) = true) :
    keepUncovered spans t off = keepUncovered spans (t.drop (en - off)) en := by
  induction t generalizing off with
  | nil => simp [keepUncovered]
  | cons c cs ih =>
    rcases Nat.eq_or_lt_of_le hom with heq | hlt
    · subst heq
      simp [Nat.sub_self]
    · rw [keepUncovered, hcov off le_rfl hlt]
      have hms : en - off = (en - (off + 1)) + 1 := by omega
      rw [hms, List.drop_succ_cons]
      simpa using ih (off + 1) hlt (fun i hi1 hi2 => hcov i (by omega) hi2)

theorem keepUncovered_tail_span (st en : Nat) (rest : List (Nat × Nat)) (t : List Char)
    (off : Nat) (h : en ≤ off) :
    keepUncovered ((st, en) :: rest) t off = keepUncovered rest t off := by
  induction t generalizing off with
  | nil => rfl
  | cons c cs ih =>
    rw [keepUncovered, keepUncovered]
    have hc : ¬(st ≤ off ∧ off < en) := by omega
    have hd : decide (st ≤ off ∧ off < en) = false := by simpa using hc
    rw [ih (off + 1) (by omega), List.any_cons, hd]
    simp only [Bool.false_or]

theorem goSplice_empty_repl (s : List Char) (spans : List (Nat × Nat)) (last : Nat)
    (hwf : SpansWF s.length last spans) :
    goSplice s [] last spans = keepUncovered spans (s.drop last) last := by
  induction spans generalizing last with
  | nil =>
    rw [goSplice, keepUncovered_nil_spans]
  | cons p rest ih =>
    obtain ⟨st, en⟩ := p
    simp only [SpansWF] at hwf
    obtain ⟨h1, h2, h3, h4⟩ := hwf
    rw [goSplice, ih en h4]
    rw [keepUncovered_skip ((st, en) :: rest) (s.drop last) last st h1 ?uncov]
    case uncov =>
      intro i hi1 hi2
      simp only [List.any_cons, Bool.or_eq_false_iff]
      constructor
      · have : ¬(st ≤ i ∧ i < en) := by omega
        simpa using this
      · exact spansWF_not_covered s.length rest en i h4 (by omega)
    rw [List.drop_drop, show last + (st - last) = st from by omega]
    rw [keepUncovered_skip_covered ((st, en) :: rest) (s.drop st) st en h2 ?cov]
    case cov =>
      intro i hi1 hi2
      simp only [List.any_cons]
      have : st ≤ i ∧ i < en := by omega
      simp [this]
    rw [List.drop_drop, show st + (en - st) = en from by omega]
    rw [keepUncovered_tail_span st en rest (s.drop en) en le_rfl]
    simp

theorem replaceAll_empty_deletes (re : Regexp) (s : String) :
    re.replaceAllString s "" = String.mk (keepUncovered (re.spans s.data) s.data 0) := by
  rw [Regexp.replaceAllString]
  have h := goSplice_empty_repl s.data (re.spans s.data) 0 (re.wf s.data)
  simp only [List.drop_zero] at h
  rw [show ("" : String).data = [] from rfl, h]

/-- C10: supplying a pattern with no replacement template is accepted: the
driver reports no usage error, runs the pattern engine with the flag
default `""` as the replacement, and `ReplaceAllString` with the empty
replacement rewrites every matching filename by deleting exactly the
characters inside the match spans (keeping all uncovered characters, in
order). -/
theorem pattern_without_replacement (fs : String → Option Entry) (cwd : String)
    (compile : String → Option Regexp) (f : Flags) (re : Regexp) (rn : String)
    (rcs : List Entry)
    (h1 : f.ruleType = "") (h2 : f.pattern ≠ "") (h3 : f.replacement = "")
    (h4 : f.directory ≠ "") (h5 : compile f.pattern = some re)
    (h6 : fs f.directory = some (.dir rn rcs)) :
    RenameCmdRun fs cwd compile f
      = .engine (patternEvents re "" f.recursive f.dryRun f.directory rcs) none
    ∧ (RenameCmdRun fs cwd compile f).isUsage = false
    ∧ ∀ (name : String), re.matchString name = true →
        re.replaceAllString name ""
          = String.mk (keepUncovered (re.spans name.data) name.data 0) := by
  have hwx : stringsToLower "" ≠ "wx-exporter" := by decide
  have hfn : stringsToLower "" ≠ "foldername-rename" := by decide
  have hrun : RenameCmdRun fs cwd compile f
      = .engine (patternEvents re "" f.recursive f.dryRun f.directory rcs) none := by
    simp [RenameCmdRun, h1, h2, h3, h4, h5, h6, hwx, hfn, processDirectory]
  refine ⟨hrun, by rw [hrun]; rfl, ?_⟩
  intro name _
  exact replaceAll_empty_deletes re name

/-- Witness for C10: a concrete invocation with a pattern and no
replacement runs the pattern engine with the empty replacement. -/
theorem pattern_without_replacement_witness :
    ({ directory := "d", pattern := "a" } : Flags).replacement = ""
    ∧ RenameCmdRun (fun p => if p = "d" then some (.dir "d" [.file "xa.txt" ""]) else none)
        "cwd" (fun _ => some ⟨fun _ => [], fun _ => trivial⟩)
        { directory := "d", pattern := "a" }
      = .engine (patternEvents ⟨fun _ => [], fun _ => trivial⟩ "" false false "d"
          [.file "xa.txt" ""]) none := by
  constructor
  · rfl
  · exact (pattern_without_replacement _ _ _ _ _ "d" _ rfl (by decide) rfl (by decide)
      rfl rfl).1

end Pyrgear
